import Mathlib

/-
Verification of the WebWolf CMS content subsystems: the template region
extractor (`extractRegions` and its helpers), the template catalog sync
(`syncTemplatesToDb` / `registerContentTypes`), the public content
resolution router (`router.get('*')` in `src/server/render/public.js`,
modelled as `resolve`), the SEO context builder and the block embedding
facility (`setupRenderBlock`).

Strings are modelled as `List Char`; the host language's `JSON.parse` and
the template engine are external collaborators and appear as explicit
function parameters.  Database queries are modelled as pure lookups over an
explicit database value, and the router additionally returns the trace of
queries it issued, in issue order.
-/

namespace WebWolf

/-- Shorthand turning a string literal into the `List Char` representation
used throughout the model. -/
def lc (s : String) : List Char := s.toList

/-! ### Schema extractor (src/unnamed/part_006, first file: `extractRegions`) -/

/-- A character that the regexes `["']` and `[^"']` treat as a quote. -/
def isQuoteCh (c : Char) : Bool := c = '"' || c = '\''

/-- Case-insensitive literal matching: consume `lit` from the front of `s`
(comparing characters lower-cased, as the `/i` regex flag does for ASCII)
and return the remainder, or `none` if `s` does not start with `lit`. -/
def dropLitCI : List Char → List Char → Option (List Char)
  | [], s => some s
  | _ :: _, [] => none
  | l :: ls, c :: cs => if c.toLower = l.toLower then dropLitCI ls cs else none

/-- The literal prefix of the region regex
`/data-cms-region=["']([^"']+)["'][^>]*>/gi`. -/
def regionLit : List Char := lc "data-cms-region="

/-- Attempt to match the region regex at the start of `s`.  On success,
returns the captured region name together with the total number of
characters the match consumed (so the full match is `s.take len`).
The regex is deterministic here: both quantifiers `[^"']+` and `[^>]*` are
followed by characters excluded from their own classes, so greedy matching
without backtracking is exact. -/
def tryMatch (s : List Char) : Option (List Char × Nat) :=
  match dropLitCI regionLit s with
  | none => none
  | some r1 =>
    match r1 with
    | [] => none
    | q1 :: r2 =>
      if isQuoteCh q1 then
        let nm := r2.takeWhile (fun c => !(isQuoteCh c))
        if nm.isEmpty then none
        else
          match r2.dropWhile (fun c => !(isQuoteCh c)) with
          | [] => none
          | _ :: r4 =>
            match r4.dropWhile (fun c => !(c = '>')) with
            | [] => none
            | _ :: _ =>
              some (nm, regionLit.length + 1 + nm.length + 1 +
                (r4.takeWhile (fun c => !(c = '>'))).length + 1)
      else none

/-- Successive non-overlapping matches of the region regex, as
`String.prototype.matchAll` produces them: try each start position left to
right, and resume after the end of each successful match.  `fuel` bounds the
recursion; `scanMatches` supplies `s.length`, which always suffices because
every match consumes at least one character. -/
def scanAux : Nat → List Char → List (List Char × List Char)
  | 0, _ => []
  | _ + 1, [] => []
  | n + 1, c :: cs =>
    match tryMatch (c :: cs) with
    | some (nm, len) => (nm, (c :: cs).take len) :: scanAux n ((c :: cs).drop len)
    | none => scanAux n cs

/-- All matches of the region regex in `s`, each as (captured name, full
matched text). -/
def scanMatches (s : List Char) : List (List Char × List Char) :=
  scanAux s.length s

/-- Attempt to match `/lit["']([^"']*)["']/i` at the start of `s`,
returning the capture.  Again deterministic: `[^"']*` is greedy up to the
first quote, which must then be present. -/
def tryAttrAt (lit : List Char) (s : List Char) : Option (List Char) :=
  match dropLitCI lit s with
  | none => none
  | some r1 =>
    match r1 with
    | [] => none
    | q1 :: r2 =>
      if isQuoteCh q1 then
        match r2.dropWhile (fun c => !(isQuoteCh c)) with
        | [] => none
        | _ :: _ => some (r2.takeWhile (fun c => !(isQuoteCh c)))
      else none

/-- Leftmost-match search used by `String.prototype.match` (no `g` flag):
try each start position from the left. -/
def attrSearch (lit : List Char) : Nat → List Char → Option (List Char)
  | 0, _ => none
  | _ + 1, [] => none
  | n + 1, c :: cs =>
    match tryAttrAt lit (c :: cs) with
    | some v => some v
    | none => attrSearch lit n cs

/-- `extractAttribute(tagString, attrName)` from the source: first match of
`new RegExp(attrName + '=["\x27]([^"\x27]*)["\x27]', 'i')`, or `null`. -/
def extractAttribute (s : List Char) (attrName : List Char) : Option (List Char) :=
  attrSearch (attrName ++ ['=']) s.length s

/-- JSON values, as produced by the host `JSON.parse` (numbers abstracted
to integers; the parser itself is a parameter of the model, so only the
empty-array value is ever needed concretely). -/
inductive Jx where
  | null
  | jbool (b : Bool)
  | jstr (s : String)
  | jnum (n : Int)
  | jarrNil
  | jarrCons (hd tl : Jx)
  | jobjNil
  | jobjCons (k : String) (v rest : Jx)
deriving DecidableEq, Repr

/-- `fieldsJson.replace(/&quot;/g, '"')`: replace every (leftmost,
non-overlapping) occurrence of `&quot;` with a double quote. -/
def unquot : List Char → List Char
  | '&' :: 'q' :: 'u' :: 'o' :: 't' :: ';' :: rest => '"' :: unquot rest
  | c :: rest => c :: unquot rest
  | [] => []

/-- `formatLabel`'s second step, `/\b\w/g`: upper-case every word character
that is not preceded by a word character (`\w` is `[A-Za-z0-9_]`). -/
def titleAux : Bool → List Char → List Char
  | _, [] => []
  | prev, c :: cs =>
    (if (c.isAlphanum || c = '_') && !prev then c.toUpper else c) ::
      titleAux (c.isAlphanum || c = '_') cs

/-- `formatLabel(name)` from the source: replace `-`/`_` with spaces, then
upper-case the first character of each word. -/
def formatLabel (n : List Char) : List Char :=
  titleAux false (n.map (fun c => if c = '-' || c = '_' then ' ' else c))

/-- JS string falsiness coalescing `a || b` where `a` may be
`null`/`undefined` (`none`) or a string: the right side is taken exactly
when `a` is absent or the empty string. -/
def jsOr (a : Option (List Char)) (b : List Char) : List Char :=
  match a with
  | none => b
  | some s => if s = [] then b else s

/-- One extracted region (`RegionSpec`).  `fields := none` models the
`fields` property being absent from the region object. -/
structure Region where
  name : List Char
  type : List Char
  label : List Char
  required : Bool
  placeholder : List Char
  fields : Option Jx
deriving DecidableEq, Repr

def typeAttr : List Char := lc "data-cms-type"
def labelAttr : List Char := lc "data-cms-label"
def requiredAttr : List Char := lc "data-cms-required"
def placeholderAttr : List Char := lc "data-cms-placeholder"
def fieldsAttr : List Char := lc "data-cms-fields"

/-- The body of the `extractRegions` loop: build the region object for one
regex match.  `pj` is the host `JSON.parse`, returning `none` where the
host parser would throw. -/
def buildRegion (pj : List Char → Option Jx) (regionName fullMatch : List Char) :
    Region :=
  let ty := jsOr (extractAttribute fullMatch typeAttr) (lc "text")
  { name := regionName
    type := ty
    label := jsOr (extractAttribute fullMatch labelAttr) (formatLabel regionName)
    required := decide (extractAttribute fullMatch requiredAttr = some (lc "true"))
    placeholder := jsOr (extractAttribute fullMatch placeholderAttr) []
    fields :=
      if ty = lc "repeater" then
        match extractAttribute fullMatch fieldsAttr with
        | some s => if s = [] then none else some ((pj (unquot s)).getD Jx.jarrNil)
        | none => none
      else none }

/-- `extractRegions(content)` from the source: scan for region matches,
build a region for each, and push it unless a region with the same name was
already collected. -/
def extractRegions (pj : List Char → Option Jx) (content : List Char) :
    List Region :=
  (scanMatches content).foldl
    (fun regions m =>
      let region := buildRegion pj m.1 m.2
      if regions.any (fun r => decide (r.name = m.1)) then regions
      else regions ++ [region])
    []

/-- A JSON parse stand-in that rejects every input (any function of this
type is a legitimate instantiation; the extractor only inspects success
versus failure). -/
def noJson : List Char → Option Jx := fun _ => none

/-! ### Observable behaviour of the duplicate check in `extractRegions` -/

/-- Deduplicate regex matches by captured name, keeping the first
occurrence: the effect of the `regions.find` guard in the source loop. -/
def dedupByName : List (List Char × List Char) → List (List Char × List Char)
  | [] => []
  | m :: rest => m :: dedupByName (rest.filter (fun p => !(decide (m.1 = p.1))))
termination_by ms => ms.length
decreasing_by
  simp only [List.length_cons]
  exact Nat.lt_succ_of_le (List.length_filter_le _ _)

/-- First-appearance order of the distinct elements of a list. -/
def firstKeepNames : List (List Char) → List (List Char)
  | [] => []
  | n :: rest => n :: firstKeepNames (rest.filter (fun x => !(decide (n = x))))
termination_by ns => ns.length
decreasing_by
  simp only [List.length_cons]
  exact Nat.lt_succ_of_le (List.length_filter_le _ _)

theorem buildRegion_name (pj : List Char → Option Jx) (nm full : List Char) :
    (buildRegion pj nm full).name = nm := rfl

theorem extractRegions_foldl (pj : List Char → Option Jx) :
    ∀ (ms : List (List Char × List Char)) (acc : List Region),
      ms.foldl
        (fun regions m =>
          let region := buildRegion pj m.1 m.2
          if regions.any (fun r => decide (r.name = m.1)) then regions
          else regions ++ [region]) acc
      = acc ++ (dedupByName (ms.filter
            (fun m => !(acc.any (fun r => decide (r.name = m.1)))))).map
          (fun m => buildRegion pj m.1 m.2) := by
  intro ms
  induction ms with
  | nil => intro acc; simp [dedupByName]
  | cons m rest ih =>
    intro acc
    by_cases h : acc.any (fun r => decide (r.name = m.1)) = true
    · simp only [List.foldl_cons, List.filter_cons, h, Bool.not_true,
        if_true, Bool.false_eq_true, if_false]
      exact ih acc
    · have hb : acc.any (fun r => decide (r.name = m.1)) = false :=
        Bool.eq_false_iff.mpr h
      simp only [List.foldl_cons, List.filter_cons, hb, Bool.not_false, if_true,
        Bool.false_eq_true, if_false]
      rw [ih (acc ++ [buildRegion pj m.1 m.2])]
      have hfilter :
          rest.filter (fun x =>
              !((acc ++ [buildRegion pj m.1 m.2]).any (fun r => decide (r.name = x.1))))
          = (rest.filter (fun x => !(acc.any (fun r => decide (r.name = x.1))))).filter
              (fun p => !(decide (m.1 = p.1))) := by
        rw [List.filter_filter]
        apply List.filter_congr
        intro x _
        simp [List.any_append, buildRegion_name, Bool.not_or, Bool.and_comm]
      rw [hfilter]
      simp only [dedupByName, List.map_cons, List.append_assoc, List.singleton_append]

theorem extractRegions_eq (pj : List Char → Option Jx) (content : List Char) :
    extractRegions pj content
      = (dedupByName (scanMatches content)).map (fun m => buildRegion pj m.1 m.2) := by
  unfold extractRegions
  rw [extractRegions_foldl pj (scanMatches content) []]
  simp

theorem dedupByName_map_fst (ms : List (List Char × List Char)) :
    (dedupByName ms).map Prod.fst = firstKeepNames (ms.map Prod.fst) := by
  match ms with
  | [] => simp [dedupByName, firstKeepNames]
  | m :: rest =>
    have ih := dedupByName_map_fst (rest.filter (fun p => !(decide (m.1 = p.1))))
    simp only [dedupByName, firstKeepNames, List.map_cons]
    rw [ih, List.filter_map]
    rfl
termination_by ms.length
decreasing_by
  simp only [List.length_cons]
  exact Nat.lt_succ_of_le (List.length_filter_le _ _)

theorem firstKeepNames_subset (ns : List (List Char)) (x : List Char)
    (hx : x ∈ firstKeepNames ns) : x ∈ ns := by
  match ns with
  | [] => simp [firstKeepNames] at hx
  | n :: rest =>
    simp only [firstKeepNames, List.mem_cons] at hx
    rcases hx with h | h
    · exact h ▸ List.mem_cons_self _ _
    · have := firstKeepNames_subset _ x h
      exact List.mem_cons_of_mem _ (List.mem_of_mem_filter this)
termination_by ns.length
decreasing_by
  simp only [List.length_cons]
  exact Nat.lt_succ_of_le (List.length_filter_le _ _)

theorem mem_firstKeepNames (ns : List (List Char)) (x : List Char) (hx : x ∈ ns) :
    x ∈ firstKeepNames ns := by
  match ns with
  | [] => simp at hx
  | n :: rest =>
    simp only [firstKeepNames, List.mem_cons]
    by_cases hxn : x = n
    · exact Or.inl hxn
    · rcases List.mem_cons.mp hx with h | h
      · exact Or.inl h
      · refine Or.inr (mem_firstKeepNames _ x ?_)
        refine List.mem_filter.mpr ⟨h, ?_⟩
        simp [Ne.symm hxn]
termination_by ns.length
decreasing_by
  simp only [List.length_cons]
  exact Nat.lt_succ_of_le (List.length_filter_le _ _)

theorem firstKeepNames_nodup (ns : List (List Char)) : (firstKeepNames ns).Nodup := by
  match ns with
  | [] => simp [firstKeepNames]
  | n :: rest =>
    simp only [firstKeepNames, List.nodup_cons]
    constructor
    · intro hmem
      have := firstKeepNames_subset _ n hmem
      have := (List.mem_filter.mp this).2
      simp at this
    · exact firstKeepNames_nodup _
termination_by ns.length
decreasing_by
  simp only [List.length_cons]
  exact Nat.lt_succ_of_le (List.length_filter_le _ _)

theorem dedupByName_subset (ms : List (List Char × List Char))
    (x : List Char × List Char) (hx : x ∈ dedupByName ms) : x ∈ ms := by
  match ms with
  | [] => simp [dedupByName] at hx
  | m :: rest =>
    simp only [dedupByName, List.mem_cons] at hx
    rcases hx with h | h
    · exact h ▸ List.mem_cons_self _ _
    · have := dedupByName_subset _ x h
      exact List.mem_cons_of_mem _ (List.mem_of_mem_filter this)
termination_by ms.length
decreasing_by
  simp only [List.length_cons]
  exact Nat.lt_succ_of_le (List.length_filter_le _ _)

theorem find?_filter_of_imp {α : Type} (l : List α) (p f : α → Bool)
    (h : ∀ x, p x = true → f x = true) :
    (l.filter f).find? p = l.find? p := by
  induction l with
  | nil => rfl
  | cons c t ih =>
    by_cases hf : f c = true
    · simp only [List.filter_cons, hf, if_true]
      by_cases hp : p c = true
      · simp [List.find?_cons, hp]
      · have hp' : p c = false := Bool.eq_false_iff.mpr hp
        simp [List.find?_cons, hp', ih]
    · have hf' : f c = false := Bool.eq_false_iff.mpr hf
      have hp' : p c = false := by
        cases hpc : p c with
        | false => rfl
        | true => exact absurd (h c hpc) hf
      simp [List.filter_cons, hf', List.find?_cons, hp', ih]

theorem dedupByName_find? (ms : List (List Char × List Char)) (nm : List Char) :
    (dedupByName ms).find? (fun p => decide (p.1 = nm))
      = ms.find? (fun p => decide (p.1 = nm)) := by
  match ms with
  | [] => simp [dedupByName]
  | m :: rest =>
    by_cases h : m.1 = nm
    · simp [dedupByName, List.find?_cons, h]
    · have h' : (decide (m.1 = nm)) = false := by simp [h]
      simp only [dedupByName, List.find?_cons, h']
      rw [dedupByName_find? (rest.filter (fun p => !(decide (m.1 = p.1)))) nm]
      apply find?_filter_of_imp
      intro x hx
      have hx' : x.1 = nm := of_decide_eq_true hx
      simp [hx' ▸ h]
termination_by ms.length
decreasing_by
  simp only [List.length_cons]
  exact Nat.lt_succ_of_le (List.length_filter_le _ _)

theorem find?_of_mem_nodup {α β : Type} [DecidableEq β] (l : List α) (f : α → β)
    (hnd : (l.map f).Nodup) (x : α) (hx : x ∈ l) (b : β) (hb : f x = b) :
    l.find? (fun y => decide (f y = b)) = some x := by
  induction l with
  | nil => simp at hx
  | cons c t ih =>
    simp only [List.map_cons, List.nodup_cons] at hnd
    rcases List.mem_cons.mp hx with h | h
    · subst h
      simp [List.find?_cons, hb]
    · have hcb : f c ≠ b := by
        intro hcb
        apply hnd.1
        rw [hcb, ← hb]
        exact List.mem_map_of_mem f h
      have : (decide (f c = b)) = false := by simp [hcb]
      simp [List.find?_cons, this, ih hnd.2 h]

theorem length_filter_eq_one {α β : Type} [DecidableEq β] (l : List α) (f : α → β)
    (hnd : (l.map f).Nodup) (b : β) (hb : b ∈ l.map f) :
    (l.filter (fun y => decide (f y = b))).length = 1 := by
  induction l with
  | nil => simp at hb
  | cons c t ih =>
    simp only [List.map_cons, List.nodup_cons] at hnd
    by_cases hc : f c = b
    · have : t.filter (fun y => decide (f y = b)) = [] := by
        rw [List.filter_eq_nil_iff]
        intro a ha
        simp only [decide_eq_true_eq]
        intro hab
        apply hnd.1
        rw [hc, ← hab]
        exact List.mem_map_of_mem f ha
      simp [List.filter_cons, hc, this]
    · have hb' : b ∈ t.map f := by
        rcases List.mem_cons.mp hb with h | h
        · exact absurd h.symm hc
        · exact h
      have : (decide (f c = b)) = false := by simp [hc]
      simp [List.filter_cons, this, ih hnd.2 hb']

theorem extractRegions_names (pj : List Char → Option Jx) (content : List Char) :
    (extractRegions pj content).map Region.name
      = firstKeepNames ((scanMatches content).map Prod.fst) := by
  rw [extractRegions_eq, List.map_map]
  have hfun : (Region.name ∘ fun m : List Char × List Char => buildRegion pj m.1 m.2)
      = (Prod.fst : List Char × List Char → List Char) := rfl
  rw [hfun, dedupByName_map_fst]

/-! ### Decomposition of scanner matches (used for attribute-position facts) -/

theorem dropLitCI_spec (lit : List Char) : ∀ (s r : List Char),
    dropLitCI lit s = some r →
    s = s.take lit.length ++ r ∧
    (s.take lit.length).map Char.toLower = lit.map Char.toLower := by
  induction lit with
  | nil =>
    intro s r h
    simp only [dropLitCI, Option.some.injEq] at h
    subst h
    simp
  | cons l ls ih =>
    intro s r h
    match s with
    | [] => simp [dropLitCI] at h
    | c :: cs =>
      simp only [dropLitCI] at h
      by_cases hc : c.toLower = l.toLower
      · rw [if_pos hc] at h
        obtain ⟨h1, h2⟩ := ih cs r h
        refine ⟨?_, ?_⟩
        · rw [List.length_cons, List.take_succ_cons, List.cons_append]
          exact congrArg (c :: ·) h1
        · rw [List.length_cons, List.take_succ_cons, List.map_cons, List.map_cons, hc, h2]
      · rw [if_neg hc] at h
        exact absurd h (by simp)

theorem tryMatch_prefix (s nm : List Char) (len : Nat)
    (h : tryMatch s = some (nm, len)) :
    regionLit.length ≤ len ∧ ∃ r1, dropLitCI regionLit s = some r1 := by
  unfold tryMatch at h
  split at h
  next => exact absurd h (by simp)
  next r1 heq =>
    refine ⟨?_, r1, heq⟩
    split at h
    next => exact absurd h (by simp)
    next q1 r2 =>
      split at h
      · simp only at h
        split at h
        next => exact absurd h (by simp)
        next =>
          split at h
          next => exact absurd h (by simp)
          next q2 r4 heq2 =>
            split at h
            next => exact absurd h (by simp)
            next g r5 heq3 =>
              rw [Option.some.injEq, Prod.mk.injEq] at h
              omega
      · exact absurd h (by simp)

theorem scanAux_decomp : ∀ (fuel : Nat) (s nm full : List Char),
    (nm, full) ∈ scanAux fuel s →
    ∃ pre suf, s = pre ++ full ++ suf ∧
      (full.take regionLit.length).map Char.toLower = regionLit := by
  intro fuel
  induction fuel with
  | zero => intro s nm full h; simp [scanAux] at h
  | succ n ih =>
    intro s nm full h
    match s with
    | [] => simp [scanAux] at h
    | c :: cs =>
      rw [scanAux] at h
      cases htm : tryMatch (c :: cs) with
      | none =>
        rw [htm] at h
        obtain ⟨pre, suf, h1, h2⟩ := ih cs nm full h
        exact ⟨c :: pre, suf, by rw [List.cons_append, List.cons_append, ← h1], h2⟩
      | some p =>
        obtain ⟨nm₀, len⟩ := p
        rw [htm] at h
        rcases List.mem_cons.mp h with heq | htail
        · have hfull : full = (c :: cs).take len := (Prod.mk.injEq _ _ _ _).mp heq |>.2
          refine ⟨[], (c :: cs).drop len, ?_, ?_⟩
          · rw [List.nil_append, hfull, List.take_append_drop]
          · obtain ⟨hle, r1, hd⟩ := tryMatch_prefix (c :: cs) nm₀ len htm
            have hspec := dropLitCI_spec regionLit (c :: cs) r1 hd
            have htk : full.take regionLit.length = (c :: cs).take regionLit.length := by
              rw [hfull, List.take_take, Nat.min_eq_left hle]
            rw [htk, hspec.2]
            decide
        · obtain ⟨pre, suf, h1, h2⟩ := ih ((c :: cs).drop len) nm full htail
          refine ⟨(c :: cs).take len ++ pre, suf, ?_, h2⟩
          conv_lhs => rw [← List.take_append_drop len (c :: cs)]
          rw [h1, List.append_assoc, List.append_assoc, List.append_assoc]

/-- C2: within one markup string, duplicate region names collapse to the
first occurrence: the extracted list contains exactly one region with the
duplicated name, that region carries the attributes built from the first
matching annotation, and the output order is the first-appearance order of
the region names. -/
theorem c2_duplicate_first_wins (pj : List Char → Option Jx) (content nm : List Char)
    (hdup : 2 ≤ ((scanMatches content).filter (fun p => decide (p.1 = nm))).length) :
    ((extractRegions pj content).filter (fun r => decide (r.name = nm))).length = 1 ∧
    (∀ r ∈ extractRegions pj content, r.name = nm →
      some r = ((scanMatches content).find? (fun p => decide (p.1 = nm))).map
        (fun m => buildRegion pj m.1 m.2)) ∧
    (extractRegions pj content).map Region.name
      = firstKeepNames ((scanMatches content).map Prod.fst) := by
  have hmem : nm ∈ (scanMatches content).map Prod.fst := by
    have hne : (scanMatches content).filter (fun p => decide (p.1 = nm)) ≠ [] := by
      intro hnil
      rw [hnil] at hdup
      simp at hdup
    obtain ⟨x, hx⟩ := List.exists_mem_of_ne_nil _ hne
    obtain ⟨hx1, hx2⟩ := List.mem_filter.mp hx
    have : x.1 = nm := of_decide_eq_true hx2
    exact this ▸ List.mem_map_of_mem Prod.fst hx1
  have hnames := extractRegions_names pj content
  have hnd : ((extractRegions pj content).map Region.name).Nodup := by
    rw [hnames]
    exact firstKeepNames_nodup _
  have hmemout : nm ∈ (extractRegions pj content).map Region.name := by
    rw [hnames]
    exact mem_firstKeepNames _ _ hmem
  refine ⟨?_, ?_, hnames⟩
  · exact length_filter_eq_one _ Region.name hnd nm hmemout
  · intro r hr hrnm
    rw [extractRegions_eq] at hr
    obtain ⟨m, hm, hrm⟩ := List.mem_map.mp hr
    have hmfst : m.1 = nm := by rw [← hrnm, ← hrm]; rfl
    have hdnd : ((dedupByName (scanMatches content)).map Prod.fst).Nodup := by
      rw [dedupByName_map_fst]
      exact firstKeepNames_nodup _
    have hfind := find?_of_mem_nodup (dedupByName (scanMatches content)) Prod.fst
      hdnd m hm nm hmfst
    rw [dedupByName_find?] at hfind
    rw [hfind]
    exact congrArg some hrm.symm

/-- C4: extraction is total and degrades malformed attributes to defaults:
every extracted region comes from one scanner match, and whenever the
type (resp. label) attribute is missing from, or not properly quoted in,
the matched element text, the region's type is `text` (resp. its label is
the title-cased region name). -/
theorem c4_malformed_attribute_defaults (pj : List Char → Option Jx)
    (content : List Char) (r : Region) (hr : r ∈ extractRegions pj content) :
    ∃ nm full, (nm, full) ∈ scanMatches content ∧ r = buildRegion pj nm full ∧
      ((extractAttribute full typeAttr = none ∨ extractAttribute full typeAttr = some []) →
        r.type = lc "text") ∧
      ((extractAttribute full labelAttr = none ∨ extractAttribute full labelAttr = some []) →
        r.label = formatLabel nm) := by
  rw [extractRegions_eq] at hr
  obtain ⟨⟨nm, full⟩, hm, hrm⟩ := List.mem_map.mp hr
  refine ⟨nm, full, dedupByName_subset _ _ hm, hrm.symm, ?_, ?_⟩
  · intro h
    rw [← hrm]
    show jsOr (extractAttribute full typeAttr) (lc "text") = lc "text"
    rcases h with h | h <;> simp [jsOr, h]
  · intro h
    rw [← hrm]
    show jsOr (extractAttribute full labelAttr) (formatLabel nm) = formatLabel nm
    rcases h with h | h <;> simp [jsOr, h]

/-- C5 counterexample: the same co-located attributes yield different
regions depending on whether they are written before or after the
`data-cms-region` attribute — written before, the type attribute is
ignored and the region gets the default type. -/
theorem c5_counterexample :
    extractRegions noJson (lc "<div data-cms-type=\"image\" data-cms-region=\"hero\">")
      ≠ extractRegions noJson (lc "<div data-cms-region=\"hero\" data-cms-type=\"image\">") := by
  decide

/-- C5 (amended): each extracted region is built solely from the
contiguous slice of the markup that starts at the `data-cms-region`
attribute itself (and ends at the next `>`), so only attributes written
after the region attribute on the element can influence the region. -/
theorem c5_attributes_after_region (pj : List Char → Option Jx)
    (content : List Char) (r : Region) (hr : r ∈ extractRegions pj content) :
    ∃ nm full pre suf, content = pre ++ full ++ suf ∧
      (full.take regionLit.length).map Char.toLower = regionLit ∧
      r = buildRegion pj nm full := by
  rw [extractRegions_eq] at hr
  obtain ⟨⟨nm, full⟩, hm, hrm⟩ := List.mem_map.mp hr
  obtain ⟨pre, suf, h1, h2⟩ :=
    scanAux_decomp content.length content nm full (dedupByName_subset _ _ hm)
  exact ⟨nm, full, pre, suf, h1, h2, hrm.symm⟩

/-- C3 counterexample: a repeater region whose fields attribute holds the
empty string (which is not valid JSON) is returned with no `fields`
property at all, not with `fields` equal to the empty list. -/
theorem c3_counterexample :
    (extractRegions noJson
        (lc "<div data-cms-region=\"items\" data-cms-type=\"repeater\" data-cms-fields=\"\">")).map
      Region.fields ≠ [some Jx.jarrNil] := by
  decide

/-- C3 (amended): a repeater region whose fields attribute holds a
nonempty string that fails to parse as JSON (after `&quot;` unescaping)
gets `fields` equal to the empty list; extraction is total, and every
region name matched anywhere in the markup still yields a region in the
output. -/
theorem c3_bad_fields_json (pj : List Char → Option Jx)
    (content nm full s : List Char)
    (_hm : (nm, full) ∈ scanMatches content)
    (hty : extractAttribute full typeAttr = some (lc "repeater"))
    (hf : extractAttribute full fieldsAttr = some s)
    (hs : s ≠ [])
    (hbad : pj (unquot s) = none) :
    (buildRegion pj nm full).fields = some Jx.jarrNil ∧
    ∀ nm' ∈ (scanMatches content).map Prod.fst,
      ∃ r ∈ extractRegions pj content, r.name = nm' := by
  constructor
  · show (if jsOr (extractAttribute full typeAttr) (lc "text") = lc "repeater" then
        match extractAttribute full fieldsAttr with
        | some s => if s = [] then none else some ((pj (unquot s)).getD Jx.jarrNil)
        | none => none
      else none) = some Jx.jarrNil
    rw [hty, hf]
    have hrep : jsOr (some (lc "repeater")) (lc "text") = lc "repeater" := by decide
    rw [hrep, if_pos rfl]
    show (if s = [] then none else some ((pj (unquot s)).getD Jx.jarrNil)) = some Jx.jarrNil
    rw [if_neg hs, hbad]
    rfl
  · intro nm' hnm'
    have : nm' ∈ (extractRegions pj content).map Region.name := by
      rw [extractRegions_names]
      exact mem_firstKeepNames _ _ hnm'
    obtain ⟨r, hr, hrn⟩ := List.mem_map.mp this
    exact ⟨r, hr, hrn⟩

/-! ### Concrete instantiations for the extractor theorems -/

def c2content : List Char :=
  lc "<h1 data-cms-region=\"t\" data-cms-label=\"A\"><h2 data-cms-region=\"t\" data-cms-label=\"B\">"

/-- Witness for C2 at concrete markup with a duplicated region name. -/
theorem c2_witness :
    2 ≤ ((scanMatches c2content).filter (fun p => decide (p.1 = lc "t"))).length ∧
    ((extractRegions noJson c2content).filter (fun r => decide (r.name = lc "t"))).length = 1 :=
  ⟨by decide, (c2_duplicate_first_wins noJson c2content (lc "t") (by decide)).1⟩

def c4content : List Char := lc "<div data-cms-region=\"x\" data-cms-type=foo>"

def c4region : Region :=
  { name := lc "x", type := lc "text", label := lc "X",
    required := false, placeholder := [], fields := none }

/-- Witness for C4 at concrete markup with an unquoted (malformed) type
attribute and a missing label attribute. -/
theorem c4_witness :
    c4region ∈ extractRegions noJson c4content ∧
    ∃ nm full, (nm, full) ∈ scanMatches c4content ∧
      c4region = buildRegion noJson nm full ∧
      ((extractAttribute full typeAttr = none ∨ extractAttribute full typeAttr = some []) →
        c4region.type = lc "text") ∧
      ((extractAttribute full labelAttr = none ∨ extractAttribute full labelAttr = some []) →
        c4region.label = formatLabel nm) :=
  ⟨by decide, c4_malformed_attribute_defaults noJson c4content c4region (by decide)⟩

def c5content : List Char := lc "<p data-cms-region=\"a\">"

def c5region : Region :=
  { name := lc "a", type := lc "text", label := lc "A",
    required := false, placeholder := [], fields := none }

/-- Witness for the amended C5 statement at concrete markup. -/
theorem c5_witness :
    c5region ∈ extractRegions noJson c5content ∧
    ∃ nm full pre suf, c5content = pre ++ full ++ suf ∧
      (full.take regionLit.length).map Char.toLower = regionLit ∧
      c5region = buildRegion noJson nm full :=
  ⟨by decide, c5_attributes_after_region noJson c5content c5region (by decide)⟩

def c3content : List Char :=
  lc "<div data-cms-region=\"items\" data-cms-type=\"repeater\" data-cms-fields=\"notjson\"><p data-cms-region=\"title\">"

def c3full : List Char :=
  lc "data-cms-region=\"items\" data-cms-type=\"repeater\" data-cms-fields=\"notjson\">"

/-- Witness for the amended C3 statement at concrete markup whose repeater
fields attribute holds a nonempty non-JSON string. -/
theorem c3_witness :
    (buildRegion noJson (lc "items") c3full).fields = some Jx.jarrNil ∧
    ∀ nm' ∈ (scanMatches c3content).map Prod.fst,
      ∃ r ∈ extractRegions noJson c3content, r.name = nm' :=
  c3_bad_fields_json noJson c3content (lc "items") c3full (lc "notjson")
    (by decide) (by decide) (by decide) (by decide) rfl

/-! ### Content resolution router (src/server/render/public.js) -/

/-- One row of the `content` table. -/
structure ContentRow where
  id : Nat
  module : List Char
  slug : List Char
  title : List Char
  data : Option (List Char)
deriving DecidableEq, Repr

/-- One row of a module table (`pages`, `products` or `blocks`): the
columns the router reads.  Optional columns model SQL NULL / absent
properties. -/
structure ModRow where
  id : Nat
  content_id : Nat
  status : List Char
  template_id : Option Nat
  meta_title : Option (List Char)
  meta_description : Option (List Char)
  canonical_url : Option (List Char)
  robots : Option (List Char)
  og_title : Option (List Char)
  og_description : Option (List Char)
  og_image : Option (List Char)
  schema_markup : Option (List Char)
  title : Option (List Char)
deriving DecidableEq, Repr

/-- One row of the `templates` table as the router joins it. -/
structure TemplateRow where
  id : Nat
  filename : List Char
deriving DecidableEq, Repr

/-- The database state visible to one request. -/
structure Db where
  content : List ContentRow
  pages : List ModRow
  products : List ModRow
  blocks : List ModRow
  templates : List TemplateRow
deriving DecidableEq, Repr

/-- The site-settings object `getSiteSettings()` assembles. -/
structure Site where
  site_name : List Char
  site_url : List Char
  default_meta_description : Option (List Char)
  home_page_id : Option Nat
deriving DecidableEq, Repr

/-- A module row joined with its template filename (`pageData` in the
source). -/
structure PageData where
  row : ModRow
  template_filename : Option (List Char)
deriving DecidableEq, Repr

/-- The kinds of database queries the route handler issues; `resolve`
returns the trace of these in issue order. -/
inductive Qk where
  | homePageQ (id : Nat)
  | contentByModule (m : List Char)
  | contentBySlug (slug : List Char)
  | pagesByContent (cid : Nat)
  | productsByContent (cid : Nat)
  | blocksByContent (cid : Nat)
  | menusQ
  | allBlocksQ
deriving DecidableEq, Repr

/-- `parseJsonField(value)` from the source: `null`/absent or
whitespace-only strings give `null`; otherwise the host JSON parse, with a
thrown parse error absorbed into `null`. -/
def parseJsonField (pj : List Char → Option Jx) : Option (List Char) → Option Jx
  | none => none
  | some s => if (s.filter (fun c => !(c.isWhitespace))).isEmpty then none else pj s

/-- JS value falsiness for JSON values (`null`, `false`, `0`, `''`). -/
def jxFalsy : Jx → Bool
  | .null => true
  | .jbool b => !b
  | .jnum n => decide (n = 0)
  | .jstr s => decide (s = "")
  | _ => false

/-- `x || d` where `x` is a parsed JSON value or `null`/`undefined`. -/
def jsOrJx (v : Option Jx) (d : Jx) : Jx :=
  match v with
  | none => d
  | some x => if jxFalsy x then d else x

/-- The SEO object assembled for a single-record render. -/
structure Seo where
  title : List Char
  description : List Char
  canonical : List Char
  robots : List Char
  ogTitle : List Char
  ogDescription : List Char
  ogImage : List Char
  ogUrl : List Char
  ogType : List Char
  schema : Option Jx
deriving DecidableEq, Repr

/-- The `seo` literal from the route handler (lines 310 and 319-333 of
`public.js`), translated field by field; `||` becomes `jsOr`. -/
def buildSeo (pj : List Char → Option Jx) (pd : PageData) (contentRow : ContentRow)
    (site : Site) (slug : List Char) : Seo :=
  let schemaMarkup := parseJsonField pj
    (match pd.row.schema_markup with
     | some s => if s = [] then none else some s
     | none => none)
  { title := jsOr pd.row.meta_title contentRow.title
    description := jsOr pd.row.meta_description []
    canonical := jsOr pd.row.canonical_url (site.site_url ++ slug)
    robots := jsOr pd.row.robots (lc "index, follow")
    ogTitle := jsOr pd.row.og_title (jsOr pd.row.meta_title contentRow.title)
    ogDescription := jsOr pd.row.og_description (jsOr pd.row.meta_description [])
    ogImage := jsOr pd.row.og_image []
    ogUrl := site.site_url ++ slug
    ogType := lc "website"
    schema := schemaMarkup }

/-- The `seo` literal of the module-index branch. -/
structure IndexSeo where
  title : List Char
  description : Option (List Char)
  robots : List Char
deriving DecidableEq, Repr

/-- The context object handed to the template renderer. -/
inductive RenderCtx where
  | indexCtx (module : List Char) (content : List ContentRow) (seo : IndexSeo)
      (site : Site) (menus : List Char)
  | pageCtx (page : PageData) (content : Jx) (seo : Seo) (site : Site)
      (menus : List Char) (product : Option PageData)
deriving DecidableEq, Repr

/-- The observable outcome of one request resolution. -/
inductive Outcome where
  | rendered (template : List Char) (ctx : RenderCtx)
  | notFound
  | serverError
deriving DecidableEq, Repr

/-- Path normalization: strip one trailing slash unless the path is
exactly `/`. -/
def normalize (p : List Char) : List Char :=
  if p ≠ lc "/" ∧ p.getLast? = some '/' then p.dropLast else p

/-- `String.prototype.split('/')`. -/
def splitSlash : List Char → List (List Char)
  | [] => [[]]
  | c :: rest =>
    match splitSlash rest with
    | [] => if c = '/' then [[], []] else [[c]]
    | h :: t => if c = '/' then [] :: h :: t else (c :: h) :: t

/-- `slug.split('/').filter(s => s)`: the nonempty path segments. -/
def pathSegments (s : List Char) : List (List Char) :=
  (splitSlash s).filter (fun x => !(x.isEmpty))

def knownModules : List (List Char) := [lc "pages", lc "products", lc "blocks"]

/-- The default-module-prefix step: prepend `/pages` when the first
segment is not a known module name. -/
def prefixDefault (slug : List Char) : List Char :=
  if slug = lc "/" then slug
  else
    match pathSegments slug with
    | [] => slug
    | s0 :: _ => if s0 ∈ knownModules then slug else lc "/pages" ++ slug

/-- `slug.match(/^\/([a-z]+)\/?$/)`: a leading slash, one or more
lowercase letters (captured), an optional trailing slash, end of string. -/
def matchModuleIndex (s : List Char) : Option (List Char) :=
  match s with
  | [] => none
  | c :: rest =>
    if c = '/' then
      let letters := rest.takeWhile (fun x => decide ('a' ≤ x) && decide (x ≤ 'z'))
      let rem := rest.dropWhile (fun x => decide ('a' ≤ x) && decide (x ≤ 'z'))
      if letters.isEmpty then none
      else if rem = [] ∨ rem = ['/'] then some letters else none
    else none

/-- The home-page override: replace `/` with the slug of the configured
home page when that lookup yields a row with a truthy slug. -/
def homeSlug (db : Db) (hid : Nat) (slug : List Char) : List Char :=
  match db.pages.find? (fun p => decide (p.id = hid)) with
  | none => slug
  | some p =>
    match db.content.find? (fun c => decide (c.id = p.content_id)) with
    | none => slug
    | some c => if c.slug = [] then slug else c.slug

/-- `LEFT JOIN templates t ON x.template_id = t.id`, selecting
`t.filename as template_filename`. -/
def joinTemplate (db : Db) (r : ModRow) : PageData :=
  { row := r
    template_filename :=
      r.template_id.bind (fun tid =>
        (db.templates.find? (fun t => decide (t.id = tid))).map TemplateRow.filename) }

/-- The products query's extra joins: template filename plus the
`content_title`-to-`title` mapping (`if (pageData && pageData.content_title)
pageData.title = pageData.content_title`). -/
def productsJoin (db : Db) (p : ModRow) : PageData :=
  let pd := joinTemplate db p
  match db.content.find? (fun c => decide (c.id = p.content_id)) with
  | some c =>
    if c.title = [] then pd
    else { pd with row := { pd.row with title := some c.title } }
  | none => pd

/-- The module dispatch of the route handler (lines 229-270): one query
shape and status gate per recognized module, and the pages-shaped query as
the default for unrecognized modules.  Returns the first matching joined
row and the trace of queries issued. -/
def dispatchModule (db : Db) (m : List Char) (cid : Nat) : Option PageData × List Qk :=
  if m = lc "pages" then
    ((db.pages.find? (fun p =>
        decide (p.content_id = cid ∧ p.status = lc "published"))).map (joinTemplate db),
     [Qk.pagesByContent cid])
  else if m = lc "products" then
    ((db.products.find? (fun p =>
        decide (p.content_id = cid ∧ (p.status = lc "active" ∨ p.status = lc "draft")))).map
      (productsJoin db),
     [Qk.productsByContent cid])
  else if m = lc "blocks" then
    ((db.blocks.find? (fun p => decide (p.content_id = cid))).map (joinTemplate db),
     [Qk.blocksByContent cid])
  else
    ((db.pages.find? (fun p =>
        decide (p.content_id = cid ∧ p.status = lc "published"))).map (joinTemplate db),
     [Qk.pagesByContent cid])

/-- `COALESCE(c.data, '\x7b\x7d')` in the module-index query. -/
def coalesceData (r : ContentRow) : ContentRow :=
  { r with data := some (r.data.getD (lc "\x7b\x7d")) }

/-- `ORDER BY c.title ASC`. -/
def titleLe (a b : ContentRow) : Prop := a.title ≤ b.title

instance : DecidableRel titleLe := fun a b => inferInstanceAs (Decidable (a.title ≤ b.title))

instance : IsTotal ContentRow titleLe := ⟨fun a b => le_total a.title b.title⟩

instance : IsTrans ContentRow titleLe := ⟨fun _ _ _ => le_trans⟩

def sortByTitle (l : List ContentRow) : List ContentRow := List.insertionSort titleLe l

/-- `module.charAt(0).toUpperCase() + module.slice(1)`. -/
def capitalizeWord (m : List Char) : List Char :=
  match m with
  | [] => []
  | c :: cs => c.toUpper :: cs

/-- The module-index branch: load all content of the module ordered by
title ascending and render `<module>/index.njk`. -/
def moduleIndexOutcome (db : Db) (site : Site) (menus : List Char) (m : List Char) :
    Outcome × List Qk :=
  let moduleContent :=
    (sortByTitle (db.content.filter (fun c => decide (c.module = m)))).map coalesceData
  (Outcome.rendered (m ++ lc "/index.njk")
    (RenderCtx.indexCtx m moduleContent
      { title := capitalizeWord m ++ lc " - " ++ site.site_name
        description := site.default_meta_description
        robots := lc "index, follow" }
      site menus),
   [Qk.contentByModule m, Qk.menusQ, Qk.allBlocksQ])

/-- The single-record path: look the content row up by slug, dispatch to
its module table, check the template assignment, then assemble SEO and
context. -/
def resolveRecord (pj : List Char → Option Jx) (db : Db) (site : Site)
    (menus : List Char) (slug : List Char) : Outcome × List Qk :=
  match db.content.find? (fun c => decide (c.slug = slug)) with
  | none => (Outcome.notFound, [Qk.contentBySlug slug])
  | some row =>
    let disp := dispatchModule db row.module row.id
    match disp.1 with
    | none => (Outcome.notFound, Qk.contentBySlug slug :: disp.2)
    | some pd =>
      match pd.template_filename with
      | none => (Outcome.serverError, Qk.contentBySlug slug :: disp.2)
      | some tf =>
        let content := jsOrJx (parseJsonField pj row.data) Jx.jobjNil
        let seo := buildSeo pj pd row site slug
        (Outcome.rendered tf
          (RenderCtx.pageCtx pd content seo site menus
            (if row.module = lc "products" then some pd else none)),
         Qk.contentBySlug slug :: disp.2 ++ [Qk.menusQ, Qk.allBlocksQ])

/-- The `router.get('*')` handler: normalize, home override, default
module prefix, module-index detection, then the single-record path.
`menus` stands in for the external menu service's result. -/
def resolve (pj : List Char → Option Jx) (db : Db) (site : Site) (menus : List Char)
    (path : List Char) : Outcome × List Qk :=
  let slug0 := normalize path
  let homePair : List Char × List Qk :=
    if slug0 = lc "/" then
      match site.home_page_id with
      | some hid => (homeSlug db hid slug0, [Qk.homePageQ hid])
      | none => (slug0, [])
    else (slug0, [])
  let slug2 := prefixDefault homePair.1
  match matchModuleIndex slug2 with
  | some m =>
    if m ∈ knownModules then
      let out := moduleIndexOutcome db site menus m
      (out.1, homePair.2 ++ out.2)
    else
      let out := resolveRecord pj db site menus slug2
      (out.1, homePair.2 ++ out.2)
  | none =>
    let out := resolveRecord pj db site menus slug2
    (out.1, homePair.2 ++ out.2)

/-! ### Path-shape lemmas for the module-index branch -/

theorem splitSlash_ne_nil (s : List Char) : splitSlash s ≠ [] := by
  cases s with
  | nil => simp [splitSlash]
  | cons c rest =>
    simp only [splitSlash]
    cases h : splitSlash rest with
    | nil => by_cases hc : c = '/' <;> simp [hc]
    | cons hd tl => by_cases hc : c = '/' <;> simp [hc]

theorem splitSlash_cons (c : Char) (t : List Char) :
    ∃ h0 tl, splitSlash t = h0 :: tl ∧
      splitSlash (c :: t) = if c = '/' then [] :: h0 :: tl else (c :: h0) :: tl := by
  cases h : splitSlash t with
  | nil => exact absurd h (splitSlash_ne_nil t)
  | cons h0 tl =>
    refine ⟨h0, tl, rfl, ?_⟩
    simp only [splitSlash, h]

theorem splitSlash_append_nonslash (m : List Char) (hm : ∀ c ∈ m, c ≠ '/')
    (rem : List Char) :
    ∃ h0 tl, splitSlash rem = h0 :: tl ∧ splitSlash (m ++ rem) = (m ++ h0) :: tl := by
  induction m with
  | nil =>
    cases h : splitSlash rem with
    | nil => exact absurd h (splitSlash_ne_nil rem)
    | cons h0 tl => exact ⟨h0, tl, rfl, by simp [h]⟩
  | cons c cs ih =>
    have hc : c ≠ '/' := hm c (List.mem_cons_self c cs)
    obtain ⟨h0, tl, h1, h2⟩ := ih (fun x hx => hm x (List.mem_cons_of_mem _ hx))
    obtain ⟨h0', tl', h1', h2'⟩ := splitSlash_cons c (cs ++ rem)
    rw [h2] at h1'
    injection h1' with e1 e2
    refine ⟨h0, tl, h1, ?_⟩
    rw [List.cons_append, h2', if_neg hc, ← e1, ← e2, List.cons_append]

theorem pathSegments_of_letters (m rem : List Char)
    (hm : ∀ c ∈ m, c ≠ '/') (hmne : m ≠ [])
    (hrem : rem = [] ∨ rem = ['/']) :
    pathSegments ('/' :: (m ++ rem)) = [m] := by
  obtain ⟨h0, tl, h1, h2⟩ := splitSlash_append_nonslash m hm rem
  obtain ⟨h0', tl', h1', h2'⟩ := splitSlash_cons '/' (m ++ rem)
  rw [h2] at h1'
  injection h1' with e1 e2
  rw [if_pos rfl, ← e1, ← e2] at h2'
  have hne : m.isEmpty = false := by
    cases m with
    | nil => exact absurd rfl hmne
    | cons a b => rfl
  rcases hrem with hr | hr
  · subst hr
    simp only [splitSlash] at h1
    injection h1 with f1 f2
    unfold pathSegments
    rw [h2', ← f1, ← f2, List.append_nil]
    simp [List.filter_cons, hne]
  · subst hr
    have hslash : splitSlash ['/'] = [[], []] := rfl
    rw [hslash] at h1
    injection h1 with f1 f2
    unfold pathSegments
    rw [h2', ← f1, ← f2, List.append_nil]
    simp [List.filter_cons, hne]

theorem matchModuleIndex_some (s m : List Char) (h : matchModuleIndex s = some m) :
    ∃ rem, s = '/' :: (m ++ rem) ∧ (rem = [] ∨ rem = ['/']) ∧ m ≠ [] ∧
      ∀ c ∈ m, c ≠ '/' := by
  match s with
  | [] => simp [matchModuleIndex] at h
  | c :: rest =>
    simp only [matchModuleIndex] at h
    by_cases hc : c = '/'
    · rw [if_pos hc] at h
      by_cases he : (rest.takeWhile
          (fun x => decide ('a' ≤ x) && decide (x ≤ 'z'))).isEmpty = true
      · rw [if_pos he] at h
        exact absurd h (by simp)
      · rw [if_neg he] at h
        by_cases hr : rest.dropWhile (fun x => decide ('a' ≤ x) && decide (x ≤ 'z')) = []
            ∨ rest.dropWhile (fun x => decide ('a' ≤ x) && decide (x ≤ 'z')) = ['/']
        · rw [if_pos hr] at h
          injection h with hm
          refine ⟨rest.dropWhile (fun x => decide ('a' ≤ x) && decide (x ≤ 'z')), ?_, hr, ?_, ?_⟩
          · rw [hc, ← hm, List.takeWhile_append_dropWhile]
          · intro hnil
            rw [← hm] at hnil
            exact he (List.isEmpty_iff.mpr hnil)
          · intro c' hc'
            rw [← hm] at hc'
            have hp := List.mem_takeWhile_imp hc'
            have hle : ('a' : Char) ≤ c' := by
              have := (Bool.and_eq_true _ _).mp hp
              exact of_decide_eq_true this.1
            intro heq
            rw [heq] at hle
            exact absurd hle (by decide)
        · rw [if_neg hr] at h
          exact absurd h (by simp)
    · rw [if_neg hc] at h
      exact absurd h (by simp)

theorem prefixDefault_of_match (s m : List Char) (h : matchModuleIndex s = some m)
    (hk : m ∈ knownModules) : prefixDefault s = s := by
  obtain ⟨rem, hs, hrem, hmne, hml⟩ := matchModuleIndex_some s m h
  have hseg : pathSegments s = [m] := by
    rw [hs]
    exact pathSegments_of_letters m rem hml hmne hrem
  have hroot : s ≠ lc "/" := by
    intro heq
    rw [heq] at hs
    injection hs with _ e
    exact hmne (List.append_eq_nil.mp e.symm).1
  unfold prefixDefault
  rw [if_neg hroot, hseg]
  show (if m ∈ knownModules then s else lc "/pages" ++ s) = s
  rw [if_pos hk]

theorem resolve_of_ne_root (pj : List Char → Option Jx) (db : Db) (site : Site)
    (menus : List Char) (path : List Char) (h0 : normalize path ≠ lc "/") :
    resolve pj db site menus path =
      (match matchModuleIndex (prefixDefault (normalize path)) with
       | some m =>
         if m ∈ knownModules then moduleIndexOutcome db site menus m
         else resolveRecord pj db site menus (prefixDefault (normalize path))
       | none => resolveRecord pj db site menus (prefixDefault (normalize path))) := by
  unfold resolve
  simp only [if_neg h0]
  cases hmm : matchModuleIndex (prefixDefault (normalize path)) with
  | some m =>
    by_cases hk : m ∈ knownModules
    · simp [hk]
    · simp [hk]
  | none => simp

/-- C6: a (normalized) path that is exactly one segment equal to a known
module name resolves as a listing request: the router renders
`<module>/index.njk` with all content records of that module ordered by
title ascending, and its query trace contains no content-by-slug lookup. -/
theorem c6_module_index_listing (pj : List Char → Option Jx) (db : Db) (site : Site)
    (menus : List Char) (path m : List Char)
    (h : matchModuleIndex (normalize path) = some m)
    (hk : m ∈ knownModules) :
    resolve pj db site menus path = moduleIndexOutcome db site menus m ∧
    (moduleIndexOutcome db site menus m).1
      = Outcome.rendered (m ++ lc "/index.njk")
          (RenderCtx.indexCtx m
            ((sortByTitle (db.content.filter (fun c => decide (c.module = m)))).map
              coalesceData)
            { title := capitalizeWord m ++ lc " - " ++ site.site_name
              description := site.default_meta_description
              robots := lc "index, follow" } site menus) ∧
    ((sortByTitle (db.content.filter (fun c => decide (c.module = m)))).map
        coalesceData).Perm
      ((db.content.filter (fun c => decide (c.module = m))).map coalesceData) ∧
    ((sortByTitle (db.content.filter (fun c => decide (c.module = m)))).map
        coalesceData).Pairwise (fun a b => a.title ≤ b.title) ∧
    ∀ s, Qk.contentBySlug s ∉ (resolve pj db site menus path).2 := by
  have h0 : normalize path ≠ lc "/" := by
    intro heq
    rw [heq] at h
    have hnone : matchModuleIndex (lc "/") = none := rfl
    rw [hnone] at h
    exact Option.noConfusion h
  have hpre := prefixDefault_of_match _ _ h hk
  have hres : resolve pj db site menus path = moduleIndexOutcome db site menus m := by
    rw [resolve_of_ne_root pj db site menus path h0, hpre, h]
    show (if m ∈ knownModules then moduleIndexOutcome db site menus m
          else resolveRecord pj db site menus (normalize path))
        = moduleIndexOutcome db site menus m
    rw [if_pos hk]
  refine ⟨hres, rfl, ?_, ?_, ?_⟩
  · exact (List.perm_insertionSort titleLe _).map coalesceData
  · refine List.pairwise_map.mpr ?_
    have hs := List.sorted_insertionSort titleLe
      (db.content.filter (fun c => decide (c.module = m)))
    exact hs.imp (fun hab => hab)
  · intro s
    rw [hres]
    show Qk.contentBySlug s ∉ [Qk.contentByModule m, Qk.menusQ, Qk.allBlocksQ]
    simp

def c6db : Db :=
  { content :=
      [ { id := 1, module := lc "products", slug := lc "/products/b", title := lc "B",
          data := none },
        { id := 2, module := lc "products", slug := lc "/products/a", title := lc "A",
          data := none } ],
    pages := [], products := [], blocks := [], templates := [] }

def c6site : Site :=
  { site_name := lc "S", site_url := lc "http://x",
    default_meta_description := none, home_page_id := none }

/-- Witness for C6 at the concrete request path `/products`. -/
theorem c6_witness :
    resolve noJson c6db c6site (lc "m") (lc "/products")
      = moduleIndexOutcome c6db c6site (lc "m") (lc "products") :=
  (c6_module_index_listing noJson c6db c6site (lc "m") (lc "/products") (lc "products")
    (by decide) (by decide)).1

/-! ### Module dispatch facts -/

theorem dispatchModule_pages_fst (db : Db) (cid : Nat) :
    (dispatchModule db (lc "pages") cid).1
      = (db.pages.find? (fun p =>
          decide (p.content_id = cid ∧ p.status = lc "published"))).map (joinTemplate db) := by
  unfold dispatchModule
  rw [if_pos rfl]

theorem dispatchModule_products_fst (db : Db) (cid : Nat) :
    (dispatchModule db (lc "products") cid).1
      = (db.products.find? (fun p =>
          decide (p.content_id = cid ∧ (p.status = lc "active" ∨ p.status = lc "draft")))).map
        (productsJoin db) := by
  unfold dispatchModule
  rw [if_neg (by decide), if_pos rfl]

theorem joinTemplate_row (db : Db) (p : ModRow) : (joinTemplate db p).row = p := rfl

theorem productsJoin_row (db : Db) (p : ModRow) :
    (productsJoin db p).row.content_id = p.content_id ∧
    (productsJoin db p).row.status = p.status := by
  unfold productsJoin
  cases db.content.find? (fun c => decide (c.id = p.content_id)) with
  | none => exact ⟨rfl, rfl⟩
  | some c => by_cases hct : c.title = [] <;> simp [hct, joinTemplate]

theorem pagesQuery_some_spec (db : Db) (cid : Nat) (pd : PageData)
    (h : (db.pages.find? (fun p =>
        decide (p.content_id = cid ∧ p.status = lc "published"))).map (joinTemplate db)
      = some pd) :
    pd.row ∈ db.pages ∧ pd.row.content_id = cid ∧ pd.row.status = lc "published" := by
  obtain ⟨p, hp, hjoin⟩ := Option.map_eq_some'.mp h
  have hmem := List.mem_of_find?_eq_some hp
  have hpred : p.content_id = cid ∧ p.status = lc "published" := by
    simpa using List.find?_some hp
  have hrow : pd.row = p := by rw [← hjoin]; exact joinTemplate_row db p
  rw [hrow]
  exact ⟨hmem, hpred.1, hpred.2⟩

/-- C9: the per-module status gates of module dispatch.  For `pages`, a
joined row is returned only when its status is `published`, and a missing
result means no page row for that content id is published (so the route
renders NotFound, final conjunct).  For `products`, a joined row is
returned only when its status is `active` or `draft`. -/
theorem c9_module_status_gates (db : Db) (cid : Nat) :
    (∀ pd, (dispatchModule db (lc "pages") cid).1 = some pd →
      pd.row ∈ db.pages ∧ pd.row.content_id = cid ∧ pd.row.status = lc "published") ∧
    ((dispatchModule db (lc "pages") cid).1 = none →
      ∀ p ∈ db.pages, p.content_id = cid → p.status ≠ lc "published") ∧
    (∀ pd, (dispatchModule db (lc "products") cid).1 = some pd →
      pd.row.content_id = cid ∧
      (pd.row.status = lc "active" ∨ pd.row.status = lc "draft") ∧
      ∃ p ∈ db.products, p.content_id = cid ∧ p.status = pd.row.status) ∧
    ((dispatchModule db (lc "products") cid).1 = none →
      ∀ p ∈ db.products, p.content_id = cid →
        p.status ≠ lc "active" ∧ p.status ≠ lc "draft") ∧
    (∀ pj site menus slug row,
      db.content.find? (fun c => decide (c.slug = slug)) = some row →
      (dispatchModule db row.module row.id).1 = none →
      (resolveRecord pj db site menus slug).1 = Outcome.notFound) := by
  refine ⟨?_, ?_, ?_, ?_, ?_⟩
  · intro pd h
    rw [dispatchModule_pages_fst] at h
    exact pagesQuery_some_spec db cid pd h
  · intro h p hp hcid hst
    rw [dispatchModule_pages_fst] at h
    have hfind : db.pages.find? (fun p =>
        decide (p.content_id = cid ∧ p.status = lc "published")) = none := by
      cases hf : db.pages.find? (fun p =>
          decide (p.content_id = cid ∧ p.status = lc "published")) with
      | none => rfl
      | some x => rw [hf] at h; exact absurd h (by simp)
    exact List.find?_eq_none.mp hfind p hp (decide_eq_true ⟨hcid, hst⟩)
  · intro pd h
    rw [dispatchModule_products_fst] at h
    obtain ⟨p, hp, hjoin⟩ := Option.map_eq_some'.mp h
    have hmem := List.mem_of_find?_eq_some hp
    have hpred : p.content_id = cid ∧ (p.status = lc "active" ∨ p.status = lc "draft") := by
      simpa using List.find?_some hp
    obtain ⟨hcid, hstat⟩ := productsJoin_row db p
    rw [← hjoin, hcid, hstat]
    exact ⟨hpred.1, hpred.2, p, hmem, hpred.1, rfl⟩
  · intro h p hp hcid
    rw [dispatchModule_products_fst] at h
    have hfind : db.products.find? (fun p =>
        decide (p.content_id = cid ∧ (p.status = lc "active" ∨ p.status = lc "draft")))
        = none := by
      cases hf : db.products.find? (fun p =>
          decide (p.content_id = cid ∧ (p.status = lc "active" ∨ p.status = lc "draft"))) with
      | none => rfl
      | some x => rw [hf] at h; exact absurd h (by simp)
    have := List.find?_eq_none.mp hfind p hp
    constructor
    · intro hs
      exact this (decide_eq_true ⟨hcid, Or.inl hs⟩)
    · intro hs
      exact this (decide_eq_true ⟨hcid, Or.inr hs⟩)
  · intro pj site menus slug row hfind hdisp
    unfold resolveRecord
    rw [hfind]
    show (let disp := dispatchModule db row.module row.id
          match disp.1 with
          | none => (Outcome.notFound, Qk.contentBySlug slug :: disp.2)
          | some pd =>
            match pd.template_filename with
            | none => (Outcome.serverError, Qk.contentBySlug slug :: disp.2)
            | some tf =>
              (Outcome.rendered tf
                (RenderCtx.pageCtx pd (jsOrJx (parseJsonField pj row.data) Jx.jobjNil)
                  (buildSeo pj pd row site slug) site menus
                  (if row.module = lc "products" then some pd else none)),
               Qk.contentBySlug slug :: disp.2 ++ [Qk.menusQ, Qk.allBlocksQ])).1
        = Outcome.notFound
    simp only [hdisp]

def c9db : Db :=
  { content := [ { id := 5, module := lc "pages", slug := lc "/pages/a", title := lc "A",
                   data := none } ],
    pages := [ { id := 1, content_id := 5, status := lc "published", template_id := none,
                 meta_title := none, meta_description := none, canonical_url := none,
                 robots := none, og_title := none, og_description := none, og_image := none,
                 schema_markup := none, title := none } ],
    products := [], blocks := [], templates := [] }

def c9pd : PageData :=
  { row := { id := 1, content_id := 5, status := lc "published", template_id := none,
             meta_title := none, meta_description := none, canonical_url := none,
             robots := none, og_title := none, og_description := none, og_image := none,
             schema_markup := none, title := none },
    template_filename := none }

/-- Witness for C9 at a concrete database with one published page. -/
theorem c9_witness :
    (dispatchModule c9db (lc "pages") 5).1 = some c9pd ∧
    (c9pd.row ∈ c9db.pages ∧ c9pd.row.content_id = 5 ∧ c9pd.row.status = lc "published") :=
  ⟨by decide, (c9_module_status_gates c9db 5).1 c9pd (by decide)⟩

/-- C10: an unrecognized module name dispatches exactly like the default
`pages` module: the page-shaped query with the `published` status gate is
run against the pages table for the record's content id, and no error is
raised (dispatch is a total function). -/
theorem c10_unknown_module_default (db : Db) (m : List Char) (cid : Nat)
    (hm : m ∉ knownModules) :
    dispatchModule db m cid = dispatchModule db (lc "pages") cid ∧
    ∀ pd, (dispatchModule db m cid).1 = some pd →
      pd.row ∈ db.pages ∧ pd.row.content_id = cid ∧ pd.row.status = lc "published" := by
  have h1 : m ≠ lc "pages" := fun e => hm (e ▸ (by decide : lc "pages" ∈ knownModules))
  have h2 : m ≠ lc "products" := fun e => hm (e ▸ (by decide : lc "products" ∈ knownModules))
  have h3 : m ≠ lc "blocks" := fun e => hm (e ▸ (by decide : lc "blocks" ∈ knownModules))
  have heq : dispatchModule db m cid = dispatchModule db (lc "pages") cid := by
    unfold dispatchModule
    rw [if_neg h1, if_neg h2, if_neg h3, if_pos rfl]
  refine ⟨heq, ?_⟩
  intro pd h
  rw [heq, dispatchModule_pages_fst] at h
  exact pagesQuery_some_spec db cid pd h

/-- Witness for C10 at the concrete unrecognized module name `blog`. -/
theorem c10_witness :
    (lc "blog" ∉ knownModules) ∧
    dispatchModule c9db (lc "blog") 5 = dispatchModule c9db (lc "pages") 5 :=
  ⟨by decide, (c10_unknown_module_default c9db (lc "blog") 5 (by decide)).1⟩

/-! ### The SEO fallback chain (C1) -/

/-- Nullish coalescing `a ?? b`: the right side is taken exactly when the
left side is null/absent. -/
def ncOpt (a : Option (List Char)) (b : List Char) : List Char := a.getD b

/-- The SEO fields named by the fallback-chain claim. -/
structure SeoFields where
  title : List Char
  description : List Char
  canonical : List Char
  robots : List Char
  ogTitle : List Char
  ogDescription : List Char
  ogImage : List Char
deriving DecidableEq, Repr

/-- The claim's fallback chains read literally, with `??` (nullish)
semantics. -/
def seoSpecNullish (pd : PageData) (contentRow : ContentRow) (site : Site)
    (slug : List Char) : SeoFields :=
  { title := ncOpt pd.row.meta_title contentRow.title
    description := ncOpt pd.row.meta_description []
    canonical := ncOpt pd.row.canonical_url (site.site_url ++ slug)
    robots := ncOpt pd.row.robots (lc "index, follow")
    ogTitle := ncOpt pd.row.og_title (ncOpt pd.row.meta_title contentRow.title)
    ogDescription := ncOpt pd.row.og_description (ncOpt pd.row.meta_description [])
    ogImage := ncOpt pd.row.og_image [] }

/-- Fallback that fires when the left side is null/absent OR the empty
string (JS `||` falsiness on strings) — the amended claim's operator. -/
def specFalsyOr (a : Option (List Char)) (b : List Char) : List Char :=
  if a = none ∨ a = some [] then b else a.getD b

/-- The amended claim's fallback chains: the same shape as the spec's, but
with the falsy-coalescing operator. -/
def seoSpecFalsy (pd : PageData) (contentRow : ContentRow) (site : Site)
    (slug : List Char) : SeoFields :=
  { title := specFalsyOr pd.row.meta_title contentRow.title
    description := specFalsyOr pd.row.meta_description []
    canonical := specFalsyOr pd.row.canonical_url (site.site_url ++ slug)
    robots := specFalsyOr pd.row.robots (lc "index, follow")
    ogTitle := specFalsyOr pd.row.og_title (specFalsyOr pd.row.meta_title contentRow.title)
    ogDescription := specFalsyOr pd.row.og_description
      (specFalsyOr pd.row.meta_description [])
    ogImage := specFalsyOr pd.row.og_image [] }

theorem jsOr_eq_specFalsyOr (a : Option (List Char)) (b : List Char) :
    jsOr a b = specFalsyOr a b := by
  cases a with
  | none => simp [jsOr, specFalsyOr]
  | some s =>
    by_cases hs : s = []
    · simp [jsOr, specFalsyOr, hs]
    · simp [jsOr, specFalsyOr, hs]

def c1pd : PageData :=
  { row := { id := 1, content_id := 1, status := lc "published", template_id := none,
             meta_title := some [], meta_description := none, canonical_url := none,
             robots := none, og_title := none, og_description := none, og_image := none,
             schema_markup := none, title := none },
    template_filename := none }

def c1row : ContentRow :=
  { id := 1, module := lc "pages", slug := lc "/pages/w", title := lc "Welcome",
    data := none }

def c1site : Site :=
  { site_name := lc "S", site_url := lc "http://x",
    default_meta_description := none, home_page_id := none }

/-- C1 counterexample: with `metaTitle` present but equal to the empty
string, the code's `||` fallback yields the content title where the
claim's `??` chain yields the empty string. -/
theorem c1_counterexample :
    (buildSeo noJson c1pd c1row c1site (lc "/pages/w")).title
      ≠ (seoSpecNullish c1pd c1row c1site (lc "/pages/w")).title := by
  decide

/-- C1 (amended): the SEO builder evaluates every field by an independent
fallback chain of the claimed shape, but with JS `||` falsiness — the
right side is taken exactly when the left side is null/absent OR the empty
string. -/
theorem c1_seo_fallback_chain (pj : List Char → Option Jx) (pd : PageData)
    (contentRow : ContentRow) (site : Site) (slug : List Char) :
    (buildSeo pj pd contentRow site slug).title
        = (seoSpecFalsy pd contentRow site slug).title ∧
    (buildSeo pj pd contentRow site slug).description
        = (seoSpecFalsy pd contentRow site slug).description ∧
    (buildSeo pj pd contentRow site slug).canonical
        = (seoSpecFalsy pd contentRow site slug).canonical ∧
    (buildSeo pj pd contentRow site slug).robots
        = (seoSpecFalsy pd contentRow site slug).robots ∧
    (buildSeo pj pd contentRow site slug).ogTitle
        = (seoSpecFalsy pd contentRow site slug).ogTitle ∧
    (buildSeo pj pd contentRow site slug).ogDescription
        = (seoSpecFalsy pd contentRow site slug).ogDescription ∧
    (buildSeo pj pd contentRow site slug).ogImage
        = (seoSpecFalsy pd contentRow site slug).ogImage := by
  refine ⟨?_, ?_, ?_, ?_, ?_, ?_, ?_⟩ <;>
    simp only [buildSeo, seoSpecFalsy, jsOr_eq_specFalsyOr]

/-! ### Block embedding facility (setupRenderBlock, src/server/index.js) -/

/-- One block row as `getAllBlocks()` returns it (block columns joined
with the template filename). -/
structure BlockRec where
  slug : List Char
  content : Option (List Char)
  template_filename : Option (List Char)
deriving DecidableEq, Repr

/-- Console output of one `renderBlock` call. -/
inductive BlockLog where
  | warnMissing (slug : List Char)
  | errRender (slug : List Char)
deriving DecidableEq, Repr

/-- `renderBlock(slug)` as registered by `setupRenderBlock`: find the
block by slug; when missing, warn and return the empty string; otherwise
parse the block's content and render its template, absorbing a thrown
render error (modelled by `render` returning `none`) into the empty
string. -/
def renderBlock (pj : List Char → Option Jx)
    (render : Option (List Char) → Jx → BlockRec → Option (List Char))
    (blocksData : List BlockRec) (slug : List Char) : List Char × List BlockLog :=
  match blocksData.find? (fun b => decide (b.slug = slug)) with
  | none => ([], [BlockLog.warnMissing slug])
  | some block =>
    let blockContent := jsOrJx (parseJsonField pj block.content) Jx.jobjNil
    match render block.template_filename blockContent block with
    | some html => (html, [])
    | none => ([], [BlockLog.errRender slug])

/-- C7: for every slug and every block set containing no block with that
slug, `renderBlock` returns the empty string together with exactly the
missing-block warning; it is a total function, so no exception can
escape, whatever the JSON parser and template renderer do. -/
theorem c7_missing_block (pj : List Char → Option Jx)
    (render : Option (List Char) → Jx → BlockRec → Option (List Char))
    (blocksData : List BlockRec) (slug : List Char)
    (h : ∀ b ∈ blocksData, b.slug ≠ slug) :
    renderBlock pj render blocksData slug = ([], [BlockLog.warnMissing slug]) := by
  unfold renderBlock
  have hfind : blocksData.find? (fun b => decide (b.slug = slug)) = none :=
    List.find?_eq_none.mpr (fun b hb => by simpa using h b hb)
  rw [hfind]

/-- Witness for C7: an empty block set and the slug `missing-slug`. -/
theorem c7_witness :
    renderBlock noJson (fun _ _ _ => none) [] (lc "missing-slug")
      = ([], [BlockLog.warnMissing (lc "missing-slug")]) :=
  c7_missing_block noJson (fun _ _ _ => none) [] (lc "missing-slug") (by simp)

/-! ### Template catalog sync (src/unnamed/part_006, second file) -/

/-- One template as produced by `scanTemplates`: display name, relative
filename, extracted regions. -/
structure TplScan where
  name : List Char
  filename : List Char
  regions : List Region
deriving DecidableEq, Repr

/-- One persisted `templates` row as the sync writes it. -/
structure TplRow where
  name : List Char
  filename : List Char
  regions_json : List Char
  content_type : List Char
deriving DecidableEq, Repr

/-- One persisted `content_types` row. -/
structure CtRow where
  name : List Char
  label : List Char
  plural_label : List Char
  icon : List Char
  has_status : Bool
  has_seo : Bool
deriving DecidableEq, Repr

/-- The persisted state the sync touches. -/
structure SyncDb where
  templates : List TplRow
  content_types : List CtRow
deriving DecidableEq, Repr

/-- `extractContentType(filename)`: the first `/`-separated path
segment. -/
def extractContentType (filename : List Char) : List Char :=
  filename.takeWhile (fun c => !(c = '/'))

/-- `formatContentTypeLabel(name)`. -/
def formatContentTypeLabel (name : List Char) : List Char :=
  match name with
  | [] => []
  | c :: cs => c.toUpper :: cs.map Char.toLower

/-- `getDefaultIcon(contentType)`. -/
def getDefaultIcon (contentType : List Char) : List Char :=
  if contentType = lc "pages" then lc "FileText"
  else if contentType = lc "blocks" then lc "Boxes"
  else if contentType = lc "blog" then lc "BookOpen"
  else if contentType = lc "news" then lc "Newspaper"
  else if contentType = lc "products" then lc "Package"
  else if contentType = lc "team" then lc "Users"
  else if contentType = lc "portfolio" then lc "Briefcase"
  else lc "FileText"

/-- The row `prisma.templates.upsert` writes for one scanned template;
`strfy` stands for the host `JSON.stringify`. -/
def mkTplRow (strfy : List Region → List Char) (t : TplScan) : TplRow :=
  { name := t.name
    filename := t.filename
    regions_json := strfy t.regions
    content_type := extractContentType t.filename }

/-- The `update` clause of the template upsert: overwrite name, regions
and content_type, keeping the filename key. -/
def tplOverwrite (row r : TplRow) : TplRow :=
  { r with name := row.name, regions_json := row.regions_json,
           content_type := row.content_type }

/-- `upsert where filename`: overwrite name/regions/content_type when a
row with this filename exists, create the row otherwise. -/
def upsertTpl (row : TplRow) (rows : List TplRow) : List TplRow :=
  if rows.any (fun r => decide (r.filename = row.filename)) then
    rows.map (fun r => if r.filename = row.filename then tplOverwrite row r else r)
  else rows ++ [row]

/-- The `content_types` row `registerContentTypes` creates for a newly
discovered name; `plural` stands for the external `pluralize.plural`. -/
def mkCtRow (plural : List Char → List Char) (typeName : List Char) : CtRow :=
  { name := typeName
    label := formatContentTypeLabel typeName
    plural_label := plural (formatContentTypeLabel typeName)
    icon := getDefaultIcon typeName
    has_status := decide (typeName ≠ lc "blocks")
    has_seo := decide (typeName ≠ lc "blocks") }

/-- `registerContentTypes`: iterate the distinct discovered content-type
names in first-appearance order (JS `Set` iteration order) and create a
row for any name not already present. -/
def registerContentTypes (plural : List Char → List Char) (cts : List CtRow)
    (templates : List TplScan) : List CtRow :=
  (firstKeepNames (templates.map (fun t => extractContentType t.filename))).foldl
    (fun cts typeName =>
      if cts.any (fun c => decide (c.name = typeName)) then cts
      else cts ++ [mkCtRow plural typeName])
    cts

/-- `syncTemplatesToDb`, taking the deterministic result of the template
tree scan as input: upsert every template row, then register newly
discovered content types. -/
def syncTemplatesToDb (plural : List Char → List Char)
    (strfy : List Region → List Char) (db : SyncDb) (templates : List TplScan) :
    SyncDb :=
  { templates :=
      templates.foldl (fun rows t => upsertTpl (mkTplRow strfy t) rows) db.templates
    content_types := registerContentTypes plural db.content_types templates }

/-! ### Idempotence of the catalog sync -/

theorem map_self_of_fix {α : Type} (f : α → α) :
    ∀ (l : List α), (∀ a ∈ l, f a = a) → l.map f = l
  | [], _ => rfl
  | a :: t, h => by
    simp only [List.map_cons]
    rw [h a (List.mem_cons_self a t),
      map_self_of_fix f t (fun x hx => h x (List.mem_cons_of_mem _ hx))]

theorem foldl_id_of_all {α β : Type} (g : α → β → α) (a : α) :
    ∀ (l : List β), (∀ x ∈ l, g a x = a) → l.foldl g a = a
  | [], _ => rfl
  | x :: t, h => by
    rw [List.foldl_cons, h x (List.mem_cons_self x t)]
    exact foldl_id_of_all g a t (fun y hy => h y (List.mem_cons_of_mem _ hy))

theorem tplOverwrite_eq (row r : TplRow) (hf : r.filename = row.filename) :
    tplOverwrite row r = row := by
  unfold tplOverwrite
  cases r
  cases row
  simp_all

theorem tplOverwrite_filename (row r : TplRow) :
    (tplOverwrite row r).filename = r.filename := rfl

theorem upsertTpl_same (row : TplRow) (rows : List TplRow)
    (hex : rows.any (fun r => decide (r.filename = row.filename)) = true)
    (hall : ∀ r ∈ rows, r.filename = row.filename → r = row) :
    upsertTpl row rows = rows := by
  unfold upsertTpl
  rw [if_pos hex]
  apply map_self_of_fix
  intro r hr
  by_cases hf : r.filename = row.filename
  · rw [if_pos hf]
    have heq := hall r hr hf
    subst heq
    exact tplOverwrite_eq r r rfl
  · rw [if_neg hf]

theorem upsertTpl_filter_ne (row : TplRow) (rows : List TplRow) (f : List Char)
    (hne : row.filename ≠ f) :
    (upsertTpl row rows).filter (fun r => decide (r.filename = f))
      = rows.filter (fun r => decide (r.filename = f)) := by
  unfold upsertTpl
  by_cases hex : rows.any (fun r => decide (r.filename = row.filename)) = true
  · rw [if_pos hex, List.filter_map]
    have hpres : ∀ x : TplRow,
        ((if x.filename = row.filename then tplOverwrite row x else x)).filename
          = x.filename := by
      intro x
      by_cases hx : x.filename = row.filename
      · rw [if_pos hx, tplOverwrite_filename]
      · rw [if_neg hx]
    have h1 : rows.filter ((fun r => decide (r.filename = f)) ∘
        (fun r => if r.filename = row.filename then tplOverwrite row r else r))
        = rows.filter (fun r => decide (r.filename = f)) := by
      apply List.filter_congr
      intro x _
      simp only [Function.comp]
      rw [hpres x]
    rw [h1]
    apply map_self_of_fix
    intro r hr
    obtain ⟨_, hpr⟩ := List.mem_filter.mp hr
    have hrf : r.filename = f := of_decide_eq_true hpr
    rw [if_neg (by rw [hrf]; exact fun e => hne e.symm)]
  · rw [if_neg hex, List.filter_append]
    have h0 : ([row].filter (fun r => decide (r.filename = f))) = [] := by
      simp [hne]
    rw [h0, List.append_nil]

theorem upsertTpl_filter_self (row : TplRow) (rows : List TplRow) :
    (upsertTpl row rows).filter (fun r => decide (r.filename = row.filename)) ≠ [] ∧
    ∀ r ∈ (upsertTpl row rows).filter (fun r => decide (r.filename = row.filename)),
      r = row := by
  unfold upsertTpl
  by_cases hex : rows.any (fun r => decide (r.filename = row.filename)) = true
  · rw [if_pos hex]
    constructor
    · obtain ⟨x, hx, hpx⟩ := List.any_eq_true.mp hex
      have hxf : x.filename = row.filename := of_decide_eq_true hpx
      intro hnil
      have hmem : tplOverwrite row x ∈
          rows.map (fun r => if r.filename = row.filename then tplOverwrite row r else r) := by
        have hmm := List.mem_map_of_mem (fun r : TplRow =>
          if r.filename = row.filename then tplOverwrite row r else r) hx
        simpa [hxf] using hmm
      have hin : tplOverwrite row x ∈
          (rows.map (fun r =>
            if r.filename = row.filename then tplOverwrite row r else r)).filter
            (fun r => decide (r.filename = row.filename)) :=
        List.mem_filter.mpr ⟨hmem, decide_eq_true (by rw [tplOverwrite_filename, hxf])⟩
      rw [hnil] at hin
      exact absurd hin (List.not_mem_nil _)
    · intro r hr
      obtain ⟨hmem', hpred⟩ := List.mem_filter.mp hr
      obtain ⟨x, hx, hgx⟩ := List.mem_map.mp hmem'
      by_cases hxf : x.filename = row.filename
      · rw [if_pos hxf] at hgx
        rw [← hgx]
        exact tplOverwrite_eq row x hxf
      · rw [if_neg hxf] at hgx
        have hrow : r.filename = row.filename := of_decide_eq_true hpred
        rw [← hgx] at hrow
        exact absurd hrow hxf
  · rw [if_neg hex, List.filter_append]
    have h1 : rows.filter (fun r => decide (r.filename = row.filename)) = [] := by
      rw [List.filter_eq_nil_iff]
      intro a ha hpa
      exact hex (List.any_eq_true.mpr ⟨a, ha, hpa⟩)
    rw [h1, List.nil_append]
    constructor
    · simp
    · intro r hr
      simp only [List.filter_cons, decide_eq_true rfl, if_true] at hr
      simpa using hr

theorem syncFold_filter_ne (strfy : List Region → List Char) (f : List Char) :
    ∀ (ts : List TplScan) (rows : List TplRow), (∀ t ∈ ts, t.filename ≠ f) →
      ((ts.foldl (fun rows t => upsertTpl (mkTplRow strfy t) rows) rows).filter
          (fun r => decide (r.filename = f)))
        = rows.filter (fun r => decide (r.filename = f))
  | [], rows, _ => rfl
  | t :: ts, rows, h => by
    rw [List.foldl_cons,
      syncFold_filter_ne strfy f ts _ (fun x hx => h x (List.mem_cons_of_mem _ hx))]
    exact upsertTpl_filter_ne (mkTplRow strfy t) rows f (h t (List.mem_cons_self t ts))

theorem syncFold_spec (strfy : List Region → List Char) :
    ∀ (ts : List TplScan) (rows : List TplRow),
      (ts.map TplScan.filename).Nodup →
      ∀ t ∈ ts,
        ((ts.foldl (fun rows t => upsertTpl (mkTplRow strfy t) rows) rows).filter
            (fun r => decide (r.filename = t.filename)) ≠ []) ∧
        (∀ r ∈ (ts.foldl (fun rows t => upsertTpl (mkTplRow strfy t) rows) rows).filter
            (fun r => decide (r.filename = t.filename)), r = mkTplRow strfy t)
  | [], _, _, t, ht => absurd ht (List.not_mem_nil t)
  | t0 :: ts, rows, hnd, t, ht => by
    have hnd2 : t0.filename ∉ List.map TplScan.filename ts ∧
        (List.map TplScan.filename ts).Nodup := by
      simpa using hnd
    rw [List.foldl_cons]
    rcases List.mem_cons.mp ht with he | hm
    · subst he
      have hne : ∀ x ∈ ts, x.filename ≠ t.filename := by
        intro x hx he2
        exact hnd2.1 (he2 ▸ List.mem_map_of_mem TplScan.filename hx)
      rw [syncFold_filter_ne strfy t.filename ts _ hne]
      exact upsertTpl_filter_self (mkTplRow strfy t) rows
    · exact syncFold_spec strfy ts _ hnd2.2 t hm

theorem syncFold_idem (strfy : List Region → List Char) (ts : List TplScan)
    (rows : List TplRow) (hnd : (ts.map TplScan.filename).Nodup) :
    ts.foldl (fun rows t => upsertTpl (mkTplRow strfy t) rows)
      (ts.foldl (fun rows t => upsertTpl (mkTplRow strfy t) rows) rows)
    = ts.foldl (fun rows t => upsertTpl (mkTplRow strfy t) rows) rows := by
  apply foldl_id_of_all
  intro t ht
  obtain ⟨hne, hall⟩ := syncFold_spec strfy ts rows hnd t ht
  apply upsertTpl_same
  · rcases List.exists_mem_of_ne_nil _ hne with ⟨x, hx⟩
    obtain ⟨hx1, hx2⟩ := List.mem_filter.mp hx
    exact List.any_eq_true.mpr ⟨x, hx1, hx2⟩
  · intro r hr hrf
    exact hall r (List.mem_filter.mpr ⟨hr, decide_eq_true hrf⟩)

theorem registerStep_mono (plural : List Char → List Char) (cts : List CtRow)
    (nm x : List Char) (h : cts.any (fun c => decide (c.name = x)) = true) :
    ((if cts.any (fun c => decide (c.name = nm)) then cts
      else cts ++ [mkCtRow plural nm]).any (fun c => decide (c.name = x))) = true := by
  by_cases he : cts.any (fun c => decide (c.name = nm)) = true
  · rw [if_pos he]
    exact h
  · rw [if_neg he, List.any_append]
    simp [h]

theorem registerFold_mono (plural : List Char → List Char) :
    ∀ (names : List (List Char)) (cts : List CtRow) (x : List Char),
      cts.any (fun c => decide (c.name = x)) = true →
      ((names.foldl (fun cts typeName =>
          if cts.any (fun c => decide (c.name = typeName)) then cts
          else cts ++ [mkCtRow plural typeName]) cts).any
        (fun c => decide (c.name = x))) = true
  | [], _, _, h => h
  | nm :: names, cts, x, h => by
    rw [List.foldl_cons]
    exact registerFold_mono plural names _ x (registerStep_mono plural cts nm x h)

theorem registerFold_present (plural : List Char → List Char) :
    ∀ (names : List (List Char)) (cts : List CtRow) (nm : List Char), nm ∈ names →
      ((names.foldl (fun cts typeName =>
          if cts.any (fun c => decide (c.name = typeName)) then cts
          else cts ++ [mkCtRow plural typeName]) cts).any
        (fun c => decide (c.name = nm))) = true
  | [], _, nm, h => absurd h (List.not_mem_nil nm)
  | n0 :: names, cts, nm, h => by
    rw [List.foldl_cons]
    rcases List.mem_cons.mp h with he | hm
    · subst he
      apply registerFold_mono
      by_cases he2 : cts.any (fun c => decide (c.name = nm)) = true
      · rw [if_pos he2]
        exact he2
      · rw [if_neg he2, List.any_append]
        simp [mkCtRow]
    · exact registerFold_present plural names _ nm hm

theorem registerContentTypes_idem (plural : List Char → List Char) (cts : List CtRow)
    (ts : List TplScan) :
    registerContentTypes plural (registerContentTypes plural cts ts) ts
      = registerContentTypes plural cts ts := by
  unfold registerContentTypes
  apply foldl_id_of_all
  intro nm hnm
  rw [if_pos (registerFold_present plural _ cts nm hnm)]

/-- C8: running the catalog sync twice over the same template-tree scan
(whose relative paths are distinct, as filesystem paths are) leaves the
persisted template rows and content-type rows exactly as after the first
run: the second run overwrites each template row with equal values and
registers no new content types. -/
theorem c8_sync_idempotent (plural : List Char → List Char)
    (strfy : List Region → List Char) (db : SyncDb) (templates : List TplScan)
    (hnd : (templates.map TplScan.filename).Nodup) :
    syncTemplatesToDb plural strfy (syncTemplatesToDb plural strfy db templates) templates
      = syncTemplatesToDb plural strfy db templates := by
  unfold syncTemplatesToDb
  show SyncDb.mk
      (templates.foldl (fun rows t => upsertTpl (mkTplRow strfy t) rows)
        (templates.foldl (fun rows t => upsertTpl (mkTplRow strfy t) rows) db.templates))
      (registerContentTypes plural
        (registerContentTypes plural db.content_types templates) templates)
    = SyncDb.mk
      (templates.foldl (fun rows t => upsertTpl (mkTplRow strfy t) rows) db.templates)
      (registerContentTypes plural db.content_types templates)
  rw [syncFold_idem strfy templates db.templates hnd,
    registerContentTypes_idem plural db.content_types templates]

def c8plural : List Char → List Char := fun l => l ++ lc "s"

def c8strfy : List Region → List Char := fun _ => lc "[]"

def c8db : SyncDb := { templates := [], content_types := [] }

def c8templates : List TplScan :=
  [ { name := lc "Home", filename := lc "pages/home.njk", regions := [] },
    { name := lc "Single", filename := lc "products/single.njk", regions := [] } ]

/-- Witness for C8 at a concrete two-template scan over an empty
database. -/
theorem c8_witness :
    syncTemplatesToDb c8plural c8strfy
        (syncTemplatesToDb c8plural c8strfy c8db c8templates) c8templates
      = syncTemplatesToDb c8plural c8strfy c8db c8templates :=
  c8_sync_idempotent c8plural c8strfy c8db c8templates (by decide)

end WebWolf
